import Mathlib

/-!
Shallow embedding of the triangular matrix-power kernel of
src/eigen/unsupported/Eigen/src/MatrixFunctions/MatrixPowerBase.h
(class MatrixPowerTriangularAtomic and the helpers in namespace internal).

Real scalars are modelled by the real numbers, complex scalars by the
complex numbers; std::pow with a real exponent is modelled by Real.rpow
on the reals and by Complex.cpow on the complex numbers, std::log by
Real.log and Complex.log, M_PI by Real.pi.  Matrices of runtime size n
are modelled as Matrix (Fin n) (Fin n) over the scalar type.  The
while loop of computeBig is modelled with an explicit fuel argument
(the C++ loop is unbounded); the external square-root collaborator
(MatrixSquareRootTriangular, not part of this file) is a function
parameter.  The bounded for loops are translated by structural
recursion on the number of remaining iterations.
-/

namespace MatrixPowerAtomic

/-- Modelled from the spec: the two-argument inverse hyperbolic tangent
used by the unwinder, atanh2(a,b) = 0.5*log((b+a)/(b-a)); the function
internal::atanh2 itself is not among the source files.  Real-scalar
instance. -/
noncomputable def atanh2R (a b : ℝ) : ℝ := Real.log ((b + a) / (b - a)) / 2

/-- Modelled from the spec: atanh2 on complex scalars. -/
noncomputable def atanh2C (a b : ℂ) : ℂ := Complex.log ((b + a) / (b - a)) / 2

/-- Eigen's internal::imag on a real scalar: identically zero. -/
def imagR (_ : ℝ) : ℝ := 0

/-- The unwinding number computed at line 341 of the source,
ceil((imag(logTdiag[i]-logTdiag[i-1]) - pi) / (2*pi)), for real
scalars, where internal::imag of a real number is zero. -/
noncomputable def unwindingNumberR (logdiff : ℝ) : ℤ :=
  ⌈(imagR logdiff - Real.pi) / (2 * Real.pi)⌉

/-- The unwinding number computed at line 341 of the source for complex
scalars: ceil((imag(logTdiag[i]-logTdiag[i-1]) - pi) / (2*pi)). -/
noncomputable def unwindingNumberC (logdiff : ℂ) : ℤ :=
  ⌈(logdiff.im - Real.pi) / (2 * Real.pi)⌉

/-- internal::matrix_power_unwinder run, real-scalar specialization
(IsComplex = 0): the unwinding number argument is ignored. -/
noncomputable def unwinderR (eival eival0 : ℝ) (_ : ℤ) : ℝ :=
  atanh2R (eival - eival0) (eival + eival0)

/-- internal::matrix_power_unwinder run, complex specialization:
atanh2(eival-eival0, eival+eival0) + Scalar(0, M_PI*unwindingNumber). -/
noncomputable def unwinderC (eival eival0 : ℂ) (u : ℤ) : ℂ :=
  atanh2C (eival - eival0) (eival + eival0) + ⟨0, Real.pi * (u : ℝ)⟩

/-- MatrixPowerTriangularAtomic::compute2x2 for real scalars
(source lines 323-347).  The loop writes res(i,i) for every i and
res(i-1,i) for every i in [1, cols); since each written entry depends
only on m_A and on res entries that were themselves just written from
m_A (res(i,i) = pow(A(i,i), p)), the routine is modelled pointwise:
entry (j,k) of the result is the diagonal power when j = k, the
selected super-diagonal branch when k = j+1, and the untouched res
entry otherwise. -/
noncomputable def compute2x2R {n : ℕ} (A : Matrix (Fin n) (Fin n) ℝ) (p : ℝ)
    (res : Matrix (Fin n) (Fin n) ℝ) : Matrix (Fin n) (Fin n) ℝ := fun j k =>
  if (j : ℕ) = (k : ℕ) then A j j ^ p
  else if (j : ℕ) + 1 = (k : ℕ) then
    if A j j = A k k then
      p * A j k ^ (p - 1)
    else if 2 * |A j j| < |A k k| ∨ 2 * |A k k| < |A j j| then
      A j k * (A k k ^ p - A j j ^ p) / (A k k - A j j)
    else
      A j k * 2 * Real.exp (0.5 * p * (Real.log (A k k) + Real.log (A j j))) *
        Real.sinh (p * unwinderR (A k k) (A j j)
          (unwindingNumberR (Real.log (A k k) - Real.log (A j j)))) /
        (A k k - A j j)
  else res j k

/-- MatrixPowerTriangularAtomic::compute2x2 for complex scalars with a
real exponent (source lines 323-347), modelled pointwise exactly as
compute2x2R. -/
noncomputable def compute2x2C {n : ℕ} (A : Matrix (Fin n) (Fin n) ℂ) (p : ℝ)
    (res : Matrix (Fin n) (Fin n) ℂ) : Matrix (Fin n) (Fin n) ℂ := fun j k =>
  if (j : ℕ) = (k : ℕ) then A j j ^ ((p : ℝ) : ℂ)
  else if (j : ℕ) + 1 = (k : ℕ) then
    if A j j = A k k then
      (p : ℂ) * A j k ^ (((p - 1 : ℝ)) : ℂ)
    else if 2 * Complex.abs (A j j) < Complex.abs (A k k) ∨
        2 * Complex.abs (A k k) < Complex.abs (A j j) then
      A j k * (A k k ^ ((p : ℝ) : ℂ) - A j j ^ ((p : ℝ) : ℂ)) / (A k k - A j j)
    else
      A j k * (2 : ℂ) *
        Complex.exp (((0.5 * p : ℝ) : ℂ) * (Complex.log (A k k) + Complex.log (A j j))) *
        Complex.sinh ((p : ℂ) * unwinderC (A k k) (A j j)
          (unwindingNumberC (Complex.log (A k k) - Complex.log (A j j)))) /
        (A k k - A j j)
  else res j k

/-- Core of internal::matrix_power_get_pade_degree (source lines
211-261): the bounded for loop, for (; degree <= maxPadeDegree;
++degree) if (normIminusT <= maxNormForPade[degree - 3]) break,
translated by structural recursion on the number of remaining loop
iterations (maxPadeDegree + 1 - degree, so the value returned when
every test fails is maxPadeDegree + 1, exactly as the C++ loop falls
through with degree == maxPadeDegree + 1).  Generic in the scalar so
the same code serves the float, double and long double overloads. -/
def padeDegreeGo {α : Type} [LinearOrderedField α] (table : List α) (nrm : α) :
    ℕ → ℕ → ℕ
  | 0, degree => degree
  | k + 1, degree =>
    if nrm ≤ table.getD (degree - 3) 0 then degree
    else padeDegreeGo table nrm k (degree + 1)

/-- internal::matrix_power_get_pade_degree with the loop entered at
degree = 3 and bound maxPadeDegree; the fuel maxPadeDegree - 2 is the
number of degrees tried (3, 4, ..., maxPadeDegree). -/
def padeDegreeSel {α : Type} [LinearOrderedField α] (table : List α)
    (maxPadeDegree : ℕ) (nrm : α) : ℕ :=
  padeDegreeGo table nrm (maxPadeDegree - 2) 3

/-- maxNormForPade table of the float overload (source line 213),
degrees 3 and 4. -/
def padeTableSingle (α : Type) [LinearOrderedField α] : List α :=
  [2.8064004e-1, 4.3386528e-1]

/-- maxNormForPade table of the double overload (source lines 223-224),
degrees 3 through 7; also the LDBL_MANT_DIG == 53 long double table. -/
def padeTableDouble (α : Type) [LinearOrderedField α] : List α :=
  [1.884160592658218e-2, 6.038881904059573e-2, 1.239917516308172e-1,
    1.999045567181744e-1, 2.789358995219730e-1]

/-- maxNormForPade table of the long double overload for
LDBL_MANT_DIG <= 64, x87 extended precision (source lines 240-241),
degrees 3 through 8. -/
def padeTableExtended (α : Type) [LinearOrderedField α] : List α :=
  [6.3854693117491799460e-3, 2.6394893435456973676e-2, 6.4216043030404063729e-2,
    1.1701165502926694307e-1, 1.7904284231268670284e-1, 2.4471944416607995472e-1]

/-- maxNormForPade table of the long double overload for
LDBL_MANT_DIG <= 106, double-double (source lines 244-247), degrees 3
through 10. -/
def padeTableDoubleDouble (α : Type) [LinearOrderedField α] : List α :=
  [1.0007161601787493236741409687186e-4, 1.0007161601787493236741409687186e-3,
    4.7069769360887572939882574746264e-3, 1.3220386624169159689406653101695e-2,
    2.8063482381631737920612944054906e-2, 4.9625993951953473052385361085058e-2,
    7.7367040706027886224557538328171e-2, 1.1016843812851143391275867258512e-1]

/-- maxNormForPade table of the long double overload for quadruple
precision (source lines 250-254), degrees 3 through 10. -/
def padeTableQuad (α : Type) [LinearOrderedField α] : List α :=
  [5.524506147036624377378713555116378e-5, 6.640600568157479679823602193345995e-4,
    3.227716520106894279249709728084626e-3, 9.619593944683432960546978734646284e-3,
    2.134595382433742403911124458161147e-2, 3.908166513900489428442993794761185e-2,
    6.266780814639442865832535460550138e-2, 9.134603732914548552537150753385375e-2]

/-- The float overload internal::matrix_power_get_pade_degree (source
lines 211-219): degrees 3..4.  Norm values are modelled as exact
rationals. -/
def matrix_power_get_pade_degree_single (nrm : ℚ) : ℕ :=
  padeDegreeSel (padeTableSingle ℚ) 4 nrm

/-- The double overload internal::matrix_power_get_pade_degree (source
lines 221-230): degrees 3..7. -/
def matrix_power_get_pade_degree_double (nrm : ℚ) : ℕ :=
  padeDegreeSel (padeTableDouble ℚ) 7 nrm

/-- The long double overload for LDBL_MANT_DIG <= 64 (source lines
238-241 and 256-260): degrees 3..8. -/
def matrix_power_get_pade_degree_extended (nrm : ℚ) : ℕ :=
  padeDegreeSel (padeTableExtended ℚ) 8 nrm

/-- The long double overload for LDBL_MANT_DIG <= 106 (source lines
242-247 and 256-260): degrees 3..10. -/
def matrix_power_get_pade_degree_ddouble (nrm : ℚ) : ℕ :=
  padeDegreeSel (padeTableDoubleDouble ℚ) 10 nrm

/-- The long double overload for quadruple precision (source lines
248-260): degrees 3..10. -/
def matrix_power_get_pade_degree_quad (nrm : ℚ) : ℕ :=
  padeDegreeSel (padeTableQuad ℚ) 10 nrm

/-- The upper-triangular view taken by computeBig:
T = m_A.template triangularView of Upper (source lines 358 and 374)
zeroes every entry strictly below the diagonal. -/
def upperTri {α : Type} [Zero α] {n : ℕ} (M : Matrix (Fin n) (Fin n) α) :
    Matrix (Fin n) (Fin n) α := fun i j => if (i : ℕ) ≤ (j : ℕ) then M i j else 0

/-- The norm used by computeBig (source line 365):
IminusT.cwiseAbs().colwise().sum().maxCoeff(), the maximum over columns
of the sum of absolute values down the column.  The fold is seeded with
0, which agrees with maxCoeff here because every column abs-sum is
nonnegative (computeBig only runs on matrices with at least 3
columns). -/
def colSumNorm {α : Type} [LinearOrderedField α] {n : ℕ}
    (M : Matrix (Fin n) (Fin n) α) : α :=
  (List.ofFn fun j : Fin n => (List.ofFn fun i : Fin n => |M i j|).sum).foldr max 0

/-- The scaling loop of MatrixPowerTriangularAtomic::computeBig (source
lines 363-376), generic in the scalar and in the external square-root
collaborator sqrtF (MatrixSquareRootTriangular, outside this file).
State: the working matrix T, numberOfSquareRoots, hasExtraSquareRoot.
The unbounded C++ while loop is given a fuel argument; on success the
loop returns (degree, IminusT, numberOfSquareRoots) exactly as those
variables stand when the C++ loop breaks. -/
def scalingLoop {α : Type} [LinearOrderedField α] {n : ℕ}
    (sqrtF : Matrix (Fin n) (Fin n) α → Matrix (Fin n) (Fin n) α)
    (maxNorm : α) (table : List α) (maxDeg : ℕ) :
    ℕ → Matrix (Fin n) (Fin n) α × ℕ × Bool →
      Option (ℕ × Matrix (Fin n) (Fin n) α × ℕ)
  | 0, _ => none
  | fuel + 1, (T, count, hasExtra) =>
    if colSumNorm (1 - T) < maxNorm then
      if (padeDegreeSel table maxDeg (colSumNorm (1 - T)) : ℤ) -
          (padeDegreeSel table maxDeg (colSumNorm (1 - T) / 2) : ℤ) ≤ 1 ∨
          hasExtra = true then
        some (padeDegreeSel table maxDeg (colSumNorm (1 - T)), 1 - T, count)
      else
        scalingLoop sqrtF maxNorm table maxDeg fuel
          (upperTri (sqrtF T), count + 1, true)
    else
      scalingLoop sqrtF maxNorm table maxDeg fuel
        (upperTri (sqrtF T), count + 1, hasExtra)

/-- The scaling-loop behaviour that claim C4 describes, written from the
claim's words for comparison with scalingLoop (the definition taken
from the source): once the norm is small enough that degrees are
computed, a pair with d - d2 <= 1 stops the loop with degree = d,
except that the very first time that condition holds one more
square-root halving is forced before stopping; a pair with d - d2 > 1
square-roots W and increments the count. -/
def scalingLoopClaimed {α : Type} [LinearOrderedField α] {n : ℕ}
    (sqrtF : Matrix (Fin n) (Fin n) α → Matrix (Fin n) (Fin n) α)
    (maxNorm : α) (table : List α) (maxDeg : ℕ) :
    ℕ → Matrix (Fin n) (Fin n) α × ℕ × Bool →
      Option (ℕ × Matrix (Fin n) (Fin n) α × ℕ)
  | 0, _ => none
  | fuel + 1, (T, count, seenStop) =>
    if colSumNorm (1 - T) < maxNorm then
      if (padeDegreeSel table maxDeg (colSumNorm (1 - T)) : ℤ) -
          (padeDegreeSel table maxDeg (colSumNorm (1 - T) / 2) : ℤ) ≤ 1 then
        if seenStop = true then
          some (padeDegreeSel table maxDeg (colSumNorm (1 - T)), 1 - T, count)
        else
          scalingLoopClaimed sqrtF maxNorm table maxDeg fuel
            (upperTri (sqrtF T), count + 1, true)
      else
        scalingLoopClaimed sqrtF maxNorm table maxDeg fuel
          (upperTri (sqrtF T), count + 1, seenStop)
    else
      scalingLoopClaimed sqrtF maxNorm table maxDeg fuel
        (upperTri (sqrtF T), count + 1, seenStop)

/-- The Pade coefficient of step i of the backward recurrence in
MatrixPowerTriangularAtomic::computePade (source line 318):
i==1 gives -p, odd i gives (-p - (i>>1)) / (i<<1), even i gives
(p - (i>>1)) / ((i-1)<<1); the C shifts are division and
multiplication by two on nonnegative ints. -/
noncomputable def padeCoeff (p : ℝ) (i : ℕ) : ℝ :=
  if i = 1 then -p
  else if i % 2 = 1 then (-p - ((i / 2 : ℕ) : ℝ)) / (2 * (i : ℝ))
  else (p - ((i / 2 : ℕ) : ℝ)) / (2 * ((i : ℝ) - 1))

/-- The backward loop of computePade (source lines 316-319), run for i =
m, m-1, ..., 1: each step replaces res by the solution X of the upper
triangular system (I + res) * X = padeCoeff p i * IminusT; the
triangular solve (an external collaborator) is modelled by
multiplication with the matrix inverse of the upper-triangular view. -/
noncomputable def padeIter {n : ℕ} (IminusT : Matrix (Fin n) (Fin n) ℝ) (p : ℝ) :
    ℕ → Matrix (Fin n) (Fin n) ℝ → Matrix (Fin n) (Fin n) ℝ
  | 0, res => res
  | i + 1, res =>
    padeIter IminusT p i ((upperTri (1 + res))⁻¹ * (padeCoeff p (i + 1) • IminusT))

/-- MatrixPowerTriangularAtomic::computePade (source lines 311-321):
res starts as (p - degree) / ((2*degree - 1) * 2) * IminusT, the
backward recurrence runs from i = 2*degree - 1 down to 1, and the
identity is added at the end. -/
noncomputable def computePade {n : ℕ} (degree : ℕ)
    (IminusT : Matrix (Fin n) (Fin n) ℝ) (p : ℝ) : Matrix (Fin n) (Fin n) ℝ :=
  padeIter IminusT p (2 * degree - 1)
    (((p - (degree : ℝ)) / (2 * ((2 * degree - 1 : ℕ) : ℝ))) • IminusT) + 1

/-- The unscaling loop of computeBig (source lines 379-383): for
numberOfSquareRoots down to 1, refine the super-diagonal with
compute2x2 at exponent ldexp(p, -numberOfSquareRoots) = p * 2^(-k) and
square the (upper-triangular view of the) result; finish with one
compute2x2 pass at the full exponent p.  compute2x2 always reads the
original matrix A. -/
noncomputable def unscale {n : ℕ} (A : Matrix (Fin n) (Fin n) ℝ) (p : ℝ) :
    ℕ → Matrix (Fin n) (Fin n) ℝ → Matrix (Fin n) (Fin n) ℝ
  | 0, res => compute2x2R A p res
  | k + 1, res =>
    let r := compute2x2R A (p * (2 : ℝ) ^ (-(k + 1 : ℤ))) res
    unscale A p k (upperTri r * r)

/-- The double-precision maxNormForPade threshold selected in
computeBig (source line 354); the embedding instantiates computeBig at
double precision (RealScalar with 53 mantissa digits). -/
noncomputable def maxNormForPadeDouble : ℝ := 2.789358995219730e-1

/-- MatrixPowerTriangularAtomic::computeBig (source lines 349-384),
instantiated at double precision: run the scaling loop from the
upper-triangular view of m_A, evaluate the Pade approximant at the
degree and IminusT the loop stopped with, then unscale.  sqrtF is the
external square-root collaborator and fuel bounds the modelled while
loop. -/
noncomputable def computeBig {n : ℕ}
    (sqrtF : Matrix (Fin n) (Fin n) ℝ → Matrix (Fin n) (Fin n) ℝ) (fuel : ℕ)
    (A : Matrix (Fin n) (Fin n) ℝ) (p : ℝ) : Option (Matrix (Fin n) (Fin n) ℝ) :=
  match scalingLoop sqrtF maxNormForPadeDouble (padeTableDouble ℝ) 7 fuel
      (upperTri A, 0, false) with
  | none => none
  | some (degree, IminusT, count) => some (unscale A p count (computePade degree IminusT p))

/-- MatrixPowerTriangularAtomic::compute (source lines 294-309):
dispatch on the matrix dimension; 0x0 leaves res untouched, 1x1 writes
pow(m_A(0,0), p) into res(0,0), 2x2 delegates to compute2x2 and larger
sizes to computeBig. -/
noncomputable def compute {n : ℕ}
    (sqrtF : Matrix (Fin n) (Fin n) ℝ → Matrix (Fin n) (Fin n) ℝ) (fuel : ℕ)
    (A : Matrix (Fin n) (Fin n) ℝ) (p : ℝ) (res : Matrix (Fin n) (Fin n) ℝ) :
    Option (Matrix (Fin n) (Fin n) ℝ) :=
  if n = 0 then some res
  else if n = 1 then
    some (fun j k => if (j : ℕ) = 0 ∧ (k : ℕ) = 0 then A j k ^ p else res j k)
  else if n = 2 then some (compute2x2R A p res)
  else computeBig sqrtF fuel A p

/-- The double-precision maxNormForPade threshold as an exact
rational, for concrete runs of the scaling loop over the rationals. -/
def maxNormForPadeDoubleQ : ℚ := 2.789358995219730e-1

/-- Concrete 1x1 triangular input for exercising the scaling loop:
T = [[9801/10000]].  Then I - T has norm 199/10000, which is below the
double-precision maxNormForPade threshold, and the degree pair there is
d = 4, d2 = 3, so d - d2 <= 1 holds at the very first iteration. -/
def Tstop : Matrix (Fin 1) (Fin 1) ℚ := !![9801/10000]

/-- Square-root collaborator for the Tstop run: on the only matrix the
claimed trace ever passes to it, namely Tstop itself, it returns the
principal square root [[99/100]] (indeed (99/100)^2 = 9801/10000). -/
def sqrtTstop (_ : Matrix (Fin 1) (Fin 1) ℚ) : Matrix (Fin 1) (Fin 1) ℚ :=
  !![99/100]

/-- The behaviour the (amended) claim C3 ascribes to a Pade degree
selector f with threshold table and maximum degree maxDeg: the result
is at least 3 and at most maxDeg + 1; a result within [3, maxDeg] meets
its tabulated threshold; every in-range degree below the result fails
its threshold (so the result is the smallest admissible degree); and
when every in-range degree fails, the returned value is maxDeg + 1. -/
def padeSelectorSpec (table : List ℚ) (maxDeg : ℕ) (f : ℚ → ℕ) : Prop :=
  ∀ nrm : ℚ,
    3 ≤ f nrm ∧
    f nrm ≤ maxDeg + 1 ∧
    (f nrm ≤ maxDeg → nrm ≤ table.getD (f nrm - 3) 0) ∧
    (∀ e : ℕ, 3 ≤ e → e < f nrm → ¬ nrm ≤ table.getD (e - 3) 0) ∧
    ((∀ e : ℕ, 3 ≤ e → e ≤ maxDeg → ¬ nrm ≤ table.getD (e - 3) 0) →
      f nrm = maxDeg + 1)

/-- Upper triangularity: every entry strictly below the diagonal is
zero (the region the engine never reads or writes). -/
def IsUpperTri {α : Type} [Zero α] {n : ℕ} (M : Matrix (Fin n) (Fin n) α) : Prop :=
  ∀ i j : Fin n, (j : ℕ) < (i : ℕ) → M i j = 0

/-- The sequence of working matrices produced by the scaling loop when
no iteration breaks: each step replaces the matrix by the
upper-triangular view of its square root, exactly as in the loop body
(source lines 373-374). -/
def sqrtIter {n : ℕ} (sqrtF : Matrix (Fin n) (Fin n) ℝ → Matrix (Fin n) (Fin n) ℝ)
    (T : Matrix (Fin n) (Fin n) ℝ) : ℕ → Matrix (Fin n) (Fin n) ℝ
  | 0 => T
  | k + 1 => upperTri (sqrtF (sqrtIter sqrtF T k))

/-- Modelled from the spec: the contract of the external triangular
principal square-root collaborator (MatrixSquareRootTriangular, not
among the source files), real-scalar instance: on an upper-triangular
input with positive diagonal (the domain on which a real principal
square root exists) it produces an upper-triangular matrix with
positive diagonal whose square is the input. -/
def SqrtContract {n : ℕ}
    (sqrtF : Matrix (Fin n) (Fin n) ℝ → Matrix (Fin n) (Fin n) ℝ) : Prop :=
  ∀ M : Matrix (Fin n) (Fin n) ℝ, IsUpperTri M → (∀ i, 0 < M i i) →
    IsUpperTri (sqrtF M) ∧ (∀ i, 0 < sqrtF M i i) ∧ sqrtF M * sqrtF M = M

/-- A concrete collaborator for 1x1 matrices: the scalar square root. -/
noncomputable def sqrtFin1 (M : Matrix (Fin 1) (Fin 1) ℝ) : Matrix (Fin 1) (Fin 1) ℝ :=
  !![Real.sqrt (M 0 0)]

/-- Unfolding lemma for the degree loop with zero fuel. -/
theorem padeDegreeGo_zero {α : Type} [LinearOrderedField α] (table : List α)
    (nrm : α) (d : ℕ) : padeDegreeGo table nrm 0 d = d := rfl

/-- Unfolding lemma for one iteration of the degree loop. -/
theorem padeDegreeGo_succ {α : Type} [LinearOrderedField α] (table : List α)
    (nrm : α) (k d : ℕ) :
    padeDegreeGo table nrm (k + 1) d =
      if nrm ≤ table.getD (d - 3) 0 then d else padeDegreeGo table nrm k (d + 1) := rfl

/-- The degree loop never returns less than its starting degree. -/
theorem padeDegreeGo_ge {α : Type} [LinearOrderedField α] (table : List α) (nrm : α) :
    ∀ k d : ℕ, d ≤ padeDegreeGo table nrm k d := by
  intro k
  induction k with
  | zero => intro d; rw [padeDegreeGo_zero]
  | succ k ih =>
    intro d
    rw [padeDegreeGo_succ]
    by_cases h : nrm ≤ table.getD (d - 3) 0
    · rw [if_pos h]
    · rw [if_neg h]
      exact Nat.le_trans (Nat.le_succ d) (ih (d + 1))

/-- The degree loop returns at most its starting degree plus its fuel. -/
theorem padeDegreeGo_le {α : Type} [LinearOrderedField α] (table : List α) (nrm : α) :
    ∀ k d : ℕ, padeDegreeGo table nrm k d ≤ d + k := by
  intro k
  induction k with
  | zero => intro d; rw [padeDegreeGo_zero]; omega
  | succ k ih =>
    intro d
    rw [padeDegreeGo_succ]
    by_cases h : nrm ≤ table.getD (d - 3) 0
    · rw [if_pos h]; omega
    · rw [if_neg h]
      exact Nat.le_trans (ih (d + 1)) (by omega)

/-- When the degree loop stops strictly before exhausting its fuel, the
returned degree meets its tabulated threshold. -/
theorem padeDegreeGo_found {α : Type} [LinearOrderedField α] (table : List α) (nrm : α) :
    ∀ k d : ℕ, padeDegreeGo table nrm k d < d + k →
      nrm ≤ table.getD (padeDegreeGo table nrm k d - 3) 0 := by
  intro k
  induction k with
  | zero => intro d h; rw [padeDegreeGo_zero] at h; omega
  | succ k ih =>
    intro d h
    rw [padeDegreeGo_succ] at h ⊢
    by_cases hth : nrm ≤ table.getD (d - 3) 0
    · rw [if_pos hth]; exact hth
    · rw [if_neg hth] at h ⊢
      exact ih (d + 1) (by omega)

/-- Every degree at or after the start and strictly before the returned
degree fails its tabulated threshold: the loop returns the first
admissible degree. -/
theorem padeDegreeGo_min {α : Type} [LinearOrderedField α] (table : List α) (nrm : α) :
    ∀ k d e : ℕ, d ≤ e → e < padeDegreeGo table nrm k d →
      ¬ nrm ≤ table.getD (e - 3) 0 := by
  intro k
  induction k with
  | zero =>
    intro d e hde he
    rw [padeDegreeGo_zero] at he
    omega
  | succ k ih =>
    intro d e hde he
    rw [padeDegreeGo_succ] at he
    by_cases hth : nrm ≤ table.getD (d - 3) 0
    · rw [if_pos hth] at he
      omega
    · rw [if_neg hth] at he
      rcases Nat.eq_or_lt_of_le hde with h | h
      · exact h ▸ hth
      · exact ih (d + 1) e h he

/-- The degree loop is monotone in the norm argument. -/
theorem padeDegreeGo_mono {α : Type} [LinearOrderedField α] (table : List α)
    (nrm₁ nrm₂ : α) (hn : nrm₁ ≤ nrm₂) :
    ∀ k d : ℕ, padeDegreeGo table nrm₁ k d ≤ padeDegreeGo table nrm₂ k d := by
  intro k
  induction k with
  | zero => intro d; rw [padeDegreeGo_zero, padeDegreeGo_zero]
  | succ k ih =>
    intro d
    rw [padeDegreeGo_succ, padeDegreeGo_succ]
    by_cases h2 : nrm₂ ≤ table.getD (d - 3) 0
    · have h1 : nrm₁ ≤ table.getD (d - 3) 0 := le_trans hn h2
      rw [if_pos h1, if_pos h2]
    · rw [if_neg h2]
      by_cases h1 : nrm₁ ≤ table.getD (d - 3) 0
      · rw [if_pos h1]
        exact Nat.le_trans (Nat.le_succ d) (padeDegreeGo_ge table nrm₂ k (d + 1))
      · rw [if_neg h1]
        exact ih (d + 1)

/-- The selector entered at degree 3 with bound maxDeg satisfies the
amended selector characterization. -/
theorem padeDegreeSel_spec (table : List ℚ) (maxDeg : ℕ) (h2 : 2 ≤ maxDeg) :
    padeSelectorSpec table maxDeg (padeDegreeSel table maxDeg) := by
  intro nrm
  have hdef : padeDegreeSel table maxDeg nrm = padeDegreeGo table nrm (maxDeg - 2) 3 := rfl
  have hge := padeDegreeGo_ge table nrm (maxDeg - 2) 3
  have hle := padeDegreeGo_le table nrm (maxDeg - 2) 3
  refine ⟨?_, ?_, ?_, ?_, ?_⟩
  · rw [hdef]; exact hge
  · rw [hdef]; omega
  · rw [hdef]; intro hmax
    exact padeDegreeGo_found table nrm (maxDeg - 2) 3 (by omega)
  · intro e h3e helt
    rw [hdef] at helt
    exact padeDegreeGo_min table nrm (maxDeg - 2) 3 e h3e helt
  · intro hall
    rw [hdef]
    rcases Nat.lt_or_ge (padeDegreeGo table nrm (maxDeg - 2) 3) (3 + (maxDeg - 2)) with h | h
    · exact absurd (padeDegreeGo_found table nrm (maxDeg - 2) 3 h) (hall _ hge (by omega))
    · omega

/-- C3 counterexample: for a norm value exceeding every tabulated
threshold the float overload of matrix_power_get_pade_degree returns 5,
one past the single-precision maximum degree 4, so it neither returns
the maximum degree nor stays inside the range [3, 4] as the claim
states. -/
theorem pade_degree_out_of_range_eval :
    matrix_power_get_pade_degree_single 1 = 5 ∧
      ¬ matrix_power_get_pade_degree_single 1 ≤ 4 := by
  have h : matrix_power_get_pade_degree_single 1 = 5 := by
    norm_num [matrix_power_get_pade_degree_single, padeDegreeSel, padeDegreeGo,
      padeTableSingle]
  exact ⟨h, by omega⟩

/-- C3 amended: for every norm value, each precision's selector returns
the smallest degree in [3, maximum] whose tabulated threshold is not
exceeded, and when the norm exceeds every tabulated threshold it
returns maximum + 1 (one past the maximum degree); the returned value
always lies in [3, maximum + 1]. -/
theorem pade_degree_selector_characterization :
    padeSelectorSpec (padeTableSingle ℚ) 4 matrix_power_get_pade_degree_single ∧
    padeSelectorSpec (padeTableDouble ℚ) 7 matrix_power_get_pade_degree_double ∧
    padeSelectorSpec (padeTableExtended ℚ) 8 matrix_power_get_pade_degree_extended ∧
    padeSelectorSpec (padeTableDoubleDouble ℚ) 10 matrix_power_get_pade_degree_ddouble ∧
    padeSelectorSpec (padeTableQuad ℚ) 10 matrix_power_get_pade_degree_quad :=
  ⟨padeDegreeSel_spec _ 4 (by omega), padeDegreeSel_spec _ 7 (by omega),
    padeDegreeSel_spec _ 8 (by omega), padeDegreeSel_spec _ 10 (by omega),
    padeDegreeSel_spec _ 10 (by omega)⟩

/-- Witness for the amended C3 characterization, instantiated at the
single-precision selector and norm 1: the minimality clause applied at
degree 4 shows that 1 exceeds the tabulated threshold for degree 4. -/
theorem pade_degree_selector_characterization_inst :
    3 ≤ (4 : ℕ) ∧ 4 < matrix_power_get_pade_degree_single 1 ∧
      ¬ (1 : ℚ) ≤ (padeTableSingle ℚ).getD (4 - 3) 0 := by
  have h4 : 4 < matrix_power_get_pade_degree_single 1 := by
    norm_num [matrix_power_get_pade_degree_single, padeDegreeSel, padeDegreeGo,
      padeTableSingle]
  exact ⟨by omega, h4,
    (pade_degree_selector_characterization.1 1).2.2.2.1 4 (by omega) h4⟩

/-- C8: within every precision class the Pade degree selector is
monotone: a strictly smaller norm never selects a larger degree. -/
theorem pade_degree_selector_monotone :
    ∀ nrm₁ nrm₂ : ℚ, nrm₁ < nrm₂ →
      matrix_power_get_pade_degree_single nrm₁ ≤ matrix_power_get_pade_degree_single nrm₂ ∧
      matrix_power_get_pade_degree_double nrm₁ ≤ matrix_power_get_pade_degree_double nrm₂ ∧
      matrix_power_get_pade_degree_extended nrm₁ ≤ matrix_power_get_pade_degree_extended nrm₂ ∧
      matrix_power_get_pade_degree_ddouble nrm₁ ≤ matrix_power_get_pade_degree_ddouble nrm₂ ∧
      matrix_power_get_pade_degree_quad nrm₁ ≤ matrix_power_get_pade_degree_quad nrm₂ := by
  intro nrm₁ nrm₂ hlt
  have hle := le_of_lt hlt
  exact ⟨padeDegreeGo_mono _ _ _ hle _ _, padeDegreeGo_mono _ _ _ hle _ _,
    padeDegreeGo_mono _ _ _ hle _ _, padeDegreeGo_mono _ _ _ hle _ _,
    padeDegreeGo_mono _ _ _ hle _ _⟩

/-- Witness for C8 at the concrete pair of norms 0 < 1. -/
theorem pade_degree_selector_monotone_inst :
    (0 : ℚ) < 1 ∧
      (matrix_power_get_pade_degree_single 0 ≤ matrix_power_get_pade_degree_single 1 ∧
       matrix_power_get_pade_degree_double 0 ≤ matrix_power_get_pade_degree_double 1 ∧
       matrix_power_get_pade_degree_extended 0 ≤ matrix_power_get_pade_degree_extended 1 ∧
       matrix_power_get_pade_degree_ddouble 0 ≤ matrix_power_get_pade_degree_ddouble 1 ∧
       matrix_power_get_pade_degree_quad 0 ≤ matrix_power_get_pade_degree_quad 1) :=
  ⟨by norm_num, pade_degree_selector_monotone 0 1 (by norm_num)⟩

/-- Unfolding lemma: one iteration of the source scaling loop. -/
theorem scalingLoop_succ {α : Type} [LinearOrderedField α] {n : ℕ}
    (sqrtF : Matrix (Fin n) (Fin n) α → Matrix (Fin n) (Fin n) α)
    (maxNorm : α) (table : List α) (maxDeg fuel : ℕ)
    (T : Matrix (Fin n) (Fin n) α) (count : ℕ) (hasExtra : Bool) :
    scalingLoop sqrtF maxNorm table maxDeg (fuel + 1) (T, count, hasExtra) =
      if colSumNorm (1 - T) < maxNorm then
        if (padeDegreeSel table maxDeg (colSumNorm (1 - T)) : ℤ) -
            (padeDegreeSel table maxDeg (colSumNorm (1 - T) / 2) : ℤ) ≤ 1 ∨
            hasExtra = true then
          some (padeDegreeSel table maxDeg (colSumNorm (1 - T)), 1 - T, count)
        else
          scalingLoop sqrtF maxNorm table maxDeg fuel (upperTri (sqrtF T), count + 1, true)
      else
        scalingLoop sqrtF maxNorm table maxDeg fuel
          (upperTri (sqrtF T), count + 1, hasExtra) := rfl

/-- Unfolding lemma: one iteration of the loop described by claim C4. -/
theorem scalingLoopClaimed_succ {α : Type} [LinearOrderedField α] {n : ℕ}
    (sqrtF : Matrix (Fin n) (Fin n) α → Matrix (Fin n) (Fin n) α)
    (maxNorm : α) (table : List α) (maxDeg fuel : ℕ)
    (T : Matrix (Fin n) (Fin n) α) (count : ℕ) (seenStop : Bool) :
    scalingLoopClaimed sqrtF maxNorm table maxDeg (fuel + 1) (T, count, seenStop) =
      if colSumNorm (1 - T) < maxNorm then
        if (padeDegreeSel table maxDeg (colSumNorm (1 - T)) : ℤ) -
            (padeDegreeSel table maxDeg (colSumNorm (1 - T) / 2) : ℤ) ≤ 1 then
          if seenStop = true then
            some (padeDegreeSel table maxDeg (colSumNorm (1 - T)), 1 - T, count)
          else
            scalingLoopClaimed sqrtF maxNorm table maxDeg fuel
              (upperTri (sqrtF T), count + 1, true)
        else
          scalingLoopClaimed sqrtF maxNorm table maxDeg fuel
            (upperTri (sqrtF T), count + 1, seenStop)
      else
        scalingLoopClaimed sqrtF maxNorm table maxDeg fuel
          (upperTri (sqrtF T), count + 1, seenStop) := rfl

/-- The column-sum norm of a 1x1 matrix is the absolute value of its
only entry. -/
theorem colSumNorm_fin_one {α : Type} [LinearOrderedField α]
    (M : Matrix (Fin 1) (Fin 1) α) : colSumNorm M = |M 0 0| := by
  simp only [colSumNorm, List.ofFn_succ, List.ofFn_zero, List.sum_cons, List.sum_nil,
    List.foldr_cons, List.foldr_nil, add_zero]
  exact max_eq_left (abs_nonneg _)

/-- C4 counterexample: on the 1x1 input Tstop the very first iteration
already has the norm below the threshold with d = 4, d2 = 3, so
d - d2 <= 1 holds for the first time; the source loop stops at once
with zero square roots taken, whereas the loop described by the claim
(scalingLoopClaimed, which performs exactly one more square-root
halving the first time the condition holds) stops only after one
square root, with count 1 instead of 0. -/
theorem scaling_loop_first_stop_eval :
    scalingLoop sqrtTstop maxNormForPadeDoubleQ (padeTableDouble ℚ) 7 5 (Tstop, 0, false) =
      some (4, 1 - Tstop, 0) ∧
    scalingLoopClaimed sqrtTstop maxNormForPadeDoubleQ (padeTableDouble ℚ) 7 5
        (Tstop, 0, false) =
      some (3, 1 - upperTri (sqrtTstop Tstop), 1) ∧
    (0 : ℕ) ≠ 1 := by
  have hN0 : colSumNorm (1 - Tstop) = 199/10000 := by
    rw [colSumNorm_fin_one, show (1 - Tstop) 0 0 = 199/10000 from by
      norm_num [Tstop, Matrix.sub_apply, Matrix.one_apply], abs_of_nonneg]
    norm_num
  have hN1 : colSumNorm (1 - upperTri (sqrtTstop Tstop)) = 1/100 := by
    rw [colSumNorm_fin_one, show (1 - upperTri (sqrtTstop Tstop)) 0 0 = 1/100 from by
      norm_num [upperTri, sqrtTstop, Matrix.sub_apply, Matrix.one_apply], abs_of_nonneg]
    norm_num
  have hd0 : padeDegreeSel (padeTableDouble ℚ) 7 ((199 : ℚ)/10000) = 4 := by
    norm_num [padeDegreeSel, padeDegreeGo, padeTableDouble]
  have hd0h : padeDegreeSel (padeTableDouble ℚ) 7 ((199 : ℚ)/10000/2) = 3 := by
    norm_num [padeDegreeSel, padeDegreeGo, padeTableDouble]
  have hd1 : padeDegreeSel (padeTableDouble ℚ) 7 ((1 : ℚ)/100) = 3 := by
    norm_num [padeDegreeSel, padeDegreeGo, padeTableDouble]
  have hd1h : padeDegreeSel (padeTableDouble ℚ) 7 ((1 : ℚ)/100/2) = 3 := by
    norm_num [padeDegreeSel, padeDegreeGo, padeTableDouble]
  refine ⟨?_, ?_, by omega⟩
  · rw [show (5 : ℕ) = 4 + 1 from rfl, scalingLoop_succ, hN0, hd0, hd0h]
    norm_num [maxNormForPadeDoubleQ]
  · rw [show (5 : ℕ) = 4 + 1 from rfl, scalingLoopClaimed_succ, hN0, hd0, hd0h]
    norm_num [maxNormForPadeDoubleQ]
    rw [show (4 : ℕ) = 3 + 1 from rfl, scalingLoopClaimed_succ, hN1, hd1, hd1h]
    norm_num

/-- C4 amended: one iteration of the scaling loop behaves as follows
once the norm of I - W is small enough that degrees are computed: if
d - d2 <= 1, or if an extra square-root halving has already been taken
at an earlier small-norm iteration (hasExtraSquareRoot), the loop stops
at once with degree = d; otherwise (d - d2 > 1, first such iteration)
the extra square root is recorded, W is replaced by the
upper-triangular view of its square root and the count is incremented,
so the loop stops at the next small-norm iteration regardless of
d - d2; while the norm is not small enough, W is square-rooted and the
count incremented with the flag unchanged. -/
theorem scaling_loop_step_characterization {α : Type} [LinearOrderedField α] {n : ℕ}
    (sqrtF : Matrix (Fin n) (Fin n) α → Matrix (Fin n) (Fin n) α)
    (maxNorm : α) (table : List α) (maxDeg fuel : ℕ)
    (T : Matrix (Fin n) (Fin n) α) (count : ℕ) (hasExtra : Bool) :
    (colSumNorm (1 - T) < maxNorm →
      ((padeDegreeSel table maxDeg (colSumNorm (1 - T)) : ℤ) -
          (padeDegreeSel table maxDeg (colSumNorm (1 - T) / 2) : ℤ) ≤ 1 ∨
        hasExtra = true) →
      scalingLoop sqrtF maxNorm table maxDeg (fuel + 1) (T, count, hasExtra) =
        some (padeDegreeSel table maxDeg (colSumNorm (1 - T)), 1 - T, count)) ∧
    (colSumNorm (1 - T) < maxNorm →
      ¬ ((padeDegreeSel table maxDeg (colSumNorm (1 - T)) : ℤ) -
          (padeDegreeSel table maxDeg (colSumNorm (1 - T) / 2) : ℤ) ≤ 1 ∨
        hasExtra = true) →
      scalingLoop sqrtF maxNorm table maxDeg (fuel + 1) (T, count, hasExtra) =
        scalingLoop sqrtF maxNorm table maxDeg fuel (upperTri (sqrtF T), count + 1, true)) ∧
    (¬ colSumNorm (1 - T) < maxNorm →
      scalingLoop sqrtF maxNorm table maxDeg (fuel + 1) (T, count, hasExtra) =
        scalingLoop sqrtF maxNorm table maxDeg fuel
          (upperTri (sqrtF T), count + 1, hasExtra)) := by
  refine ⟨?_, ?_, ?_⟩
  · intro hnorm hstop
    rw [scalingLoop_succ, if_pos hnorm, if_pos hstop]
  · intro hnorm hstop
    rw [scalingLoop_succ, if_pos hnorm, if_neg hstop]
  · intro hnorm
    rw [scalingLoop_succ, if_neg hnorm]

/-- Witness for the amended C4 characterization: the stop clause applied
to the concrete Tstop run, whose first iteration has norm 199/10000
below the double threshold and degree pair d = 4, d2 = 3. -/
theorem scaling_loop_step_characterization_inst :
    colSumNorm (1 - Tstop) < maxNormForPadeDoubleQ ∧
    ((padeDegreeSel (padeTableDouble ℚ) 7 (colSumNorm (1 - Tstop)) : ℤ) -
        (padeDegreeSel (padeTableDouble ℚ) 7 (colSumNorm (1 - Tstop) / 2) : ℤ) ≤ 1 ∨
      false = true) ∧
    scalingLoop sqrtTstop maxNormForPadeDoubleQ (padeTableDouble ℚ) 7 (4 + 1)
        (Tstop, 0, false) =
      some (padeDegreeSel (padeTableDouble ℚ) 7 (colSumNorm (1 - Tstop)), 1 - Tstop, 0) := by
  have hN0 : colSumNorm (1 - Tstop) = 199/10000 := by
    rw [colSumNorm_fin_one, show (1 - Tstop) 0 0 = 199/10000 from by
      norm_num [Tstop, Matrix.sub_apply, Matrix.one_apply], abs_of_nonneg]
    norm_num
  have h1 : colSumNorm (1 - Tstop) < maxNormForPadeDoubleQ := by
    rw [hN0]; norm_num [maxNormForPadeDoubleQ]
  have h2 : (padeDegreeSel (padeTableDouble ℚ) 7 (colSumNorm (1 - Tstop)) : ℤ) -
      (padeDegreeSel (padeTableDouble ℚ) 7 (colSumNorm (1 - Tstop) / 2) : ℤ) ≤ 1 ∨
      false = true := by
    rw [hN0]
    norm_num [padeDegreeSel, padeDegreeGo, padeTableDouble]
  exact ⟨h1, h2,
    (scaling_loop_step_characterization sqrtTstop maxNormForPadeDoubleQ
      (padeTableDouble ℚ) 7 4 Tstop 0 false).1 h1 h2⟩

/-- compute2x2 writes the diagonal power pow(A(k,k), p) at every
diagonal position. -/
theorem compute2x2R_diag {n : ℕ} (A : Matrix (Fin n) (Fin n) ℝ) (p : ℝ)
    (res : Matrix (Fin n) (Fin n) ℝ) (j k : Fin n) (h : (j : ℕ) = (k : ℕ)) :
    compute2x2R A p res j k = A j j ^ p := by
  simp only [compute2x2R, if_pos h]

/-- compute2x2, equal-diagonal branch (source line 335): the
super-diagonal entry is p * pow(A(j,k), p-1), the power of the
off-diagonal entry itself. -/
theorem compute2x2R_super_equal {n : ℕ} (A : Matrix (Fin n) (Fin n) ℝ) (p : ℝ)
    (res : Matrix (Fin n) (Fin n) ℝ) (j k : Fin n) (h1 : (j : ℕ) + 1 = (k : ℕ))
    (h2 : A j j = A k k) :
    compute2x2R A p res j k = p * A j k ^ (p - 1) := by
  have hne : ¬ (j : ℕ) = (k : ℕ) := by omega
  simp only [compute2x2R, if_neg hne, if_pos h1, if_pos h2]

/-- compute2x2, well-separated branch (source lines 337-339).  The
separation test itself rules out equal diagonal entries, so no equality
hypothesis is needed. -/
theorem compute2x2R_super_sep {n : ℕ} (A : Matrix (Fin n) (Fin n) ℝ) (p : ℝ)
    (res : Matrix (Fin n) (Fin n) ℝ) (j k : Fin n) (h1 : (j : ℕ) + 1 = (k : ℕ))
    (h2 : 2 * |A j j| < |A k k| ∨ 2 * |A k k| < |A j j|) :
    compute2x2R A p res j k = A j k * (A k k ^ p - A j j ^ p) / (A k k - A j j) := by
  have hne0 : ¬ (j : ℕ) = (k : ℕ) := by omega
  have hne : ¬ A j j = A k k := by
    intro h
    rcases h2 with h2 | h2 <;> rw [h] at h2 <;>
      have := abs_nonneg (A k k) <;> rw [h] at * <;> linarith
  simp only [compute2x2R, if_neg hne0, if_pos h1, if_neg hne, if_pos h2]

/-- compute2x2, hyperbolic-sine branch (source lines 340-345). -/
theorem compute2x2R_super_sinh {n : ℕ} (A : Matrix (Fin n) (Fin n) ℝ) (p : ℝ)
    (res : Matrix (Fin n) (Fin n) ℝ) (j k : Fin n) (h1 : (j : ℕ) + 1 = (k : ℕ))
    (h2 : ¬ A j j = A k k)
    (h3 : ¬ (2 * |A j j| < |A k k| ∨ 2 * |A k k| < |A j j|)) :
    compute2x2R A p res j k =
      A j k * 2 * Real.exp (0.5 * p * (Real.log (A k k) + Real.log (A j j))) *
        Real.sinh (p * unwinderR (A k k) (A j j)
          (unwindingNumberR (Real.log (A k k) - Real.log (A j j)))) /
        (A k k - A j j) := by
  have hne0 : ¬ (j : ℕ) = (k : ℕ) := by omega
  simp only [compute2x2R, if_neg hne0, if_pos h1, if_neg h2, if_neg h3]

/-- compute2x2 leaves every entry outside the diagonal and the first
super-diagonal untouched. -/
theorem compute2x2R_untouched {n : ℕ} (A : Matrix (Fin n) (Fin n) ℝ) (p : ℝ)
    (res : Matrix (Fin n) (Fin n) ℝ) (j k : Fin n) (h1 : ¬ (j : ℕ) = (k : ℕ))
    (h2 : ¬ (j : ℕ) + 1 = (k : ℕ)) :
    compute2x2R A p res j k = res j k := by
  simp only [compute2x2R, if_neg h1, if_neg h2]

/-- compute2x2 on complex scalars: diagonal entries. -/
theorem compute2x2C_diag {n : ℕ} (A : Matrix (Fin n) (Fin n) ℂ) (p : ℝ)
    (res : Matrix (Fin n) (Fin n) ℂ) (j k : Fin n) (h : (j : ℕ) = (k : ℕ)) :
    compute2x2C A p res j k = A j j ^ ((p : ℝ) : ℂ) := by
  simp only [compute2x2C, if_pos h]

/-- compute2x2 on complex scalars, equal-diagonal branch. -/
theorem compute2x2C_super_equal {n : ℕ} (A : Matrix (Fin n) (Fin n) ℂ) (p : ℝ)
    (res : Matrix (Fin n) (Fin n) ℂ) (j k : Fin n) (h1 : (j : ℕ) + 1 = (k : ℕ))
    (h2 : A j j = A k k) :
    compute2x2C A p res j k = (p : ℂ) * A j k ^ (((p - 1 : ℝ)) : ℂ) := by
  have hne : ¬ (j : ℕ) = (k : ℕ) := by omega
  simp only [compute2x2C, if_neg hne, if_pos h1, if_pos h2]

/-- compute2x2 on complex scalars, hyperbolic-sine branch. -/
theorem compute2x2C_super_sinh {n : ℕ} (A : Matrix (Fin n) (Fin n) ℂ) (p : ℝ)
    (res : Matrix (Fin n) (Fin n) ℂ) (j k : Fin n) (h1 : (j : ℕ) + 1 = (k : ℕ))
    (h2 : ¬ A j j = A k k)
    (h3 : ¬ (2 * Complex.abs (A j j) < Complex.abs (A k k) ∨
        2 * Complex.abs (A k k) < Complex.abs (A j j))) :
    compute2x2C A p res j k =
      A j k * (2 : ℂ) *
        Complex.exp (((0.5 * p : ℝ) : ℂ) * (Complex.log (A k k) + Complex.log (A j j))) *
        Complex.sinh ((p : ℂ) * unwinderC (A k k) (A j j)
          (unwindingNumberC (Complex.log (A k k) - Complex.log (A j j)))) /
        (A k k - A j j) := by
  have hne0 : ¬ (j : ℕ) = (k : ℕ) := by omega
  simp only [compute2x2C, if_neg hne0, if_pos h1, if_neg h2, if_neg h3]

/-- C1: at the failing input T = [[2,5],[0,2]], p = 3, the equal-diagonal
branch of compute2x2 (source line 335) evaluates the super-diagonal
entry to p * pow(T(0,1), p-1) = 3 * 5^2 = 75, whereas the claimed (and
mathematically correct) value p * pow(lambda, p-1) * T(0,1) =
3 * 2^2 * 5 is 60: the code raises the off-diagonal entry, not the
common eigenvalue, to the power p-1 and never rescales by the
off-diagonal entry. -/
theorem compute2x2_equal_pair_eval :
    compute2x2R !![(2:ℝ), 5; 0, 2] 3 0 = !![8, 75; 0, 8] ∧
    (3:ℝ) * 2 ^ ((3:ℝ) - 1) * 5 = 60 ∧ (75:ℝ) ≠ 60 := by
  have h23 : (2:ℝ) ^ (3:ℝ) = 8 := by
    rw [show (3:ℝ) = ((3:ℕ):ℝ) by norm_num, Real.rpow_natCast]; norm_num
  have h52 : (5:ℝ) ^ ((3:ℝ) - 1) = 25 := by
    rw [show (3:ℝ) - 1 = ((2:ℕ):ℝ) by norm_num, Real.rpow_natCast]; norm_num
  have h22 : (2:ℝ) ^ ((3:ℝ) - 1) = 4 := by
    rw [show (3:ℝ) - 1 = ((2:ℕ):ℝ) by norm_num, Real.rpow_natCast]; norm_num
  refine ⟨?_, by rw [h22]; norm_num, by norm_num⟩
  ext i j
  fin_cases i <;> fin_cases j
  · rw [compute2x2R_diag _ _ _ _ _ rfl]
    norm_num [h23]
  · rw [compute2x2R_super_equal _ _ _ _ _ rfl (by norm_num)]
    norm_num [h52]
  · rw [compute2x2R_untouched _ _ _ _ _ (by norm_num) (by norm_num)]
    norm_num
  · rw [compute2x2R_diag _ _ _ _ _ rfl]
    norm_num [h23]

/-- C2: at the failing input T = [[2,5],[0,2]], p = 1, compute (which
dispatches the 2x2 input to compute2x2) returns [[2,1],[0,2]] rather
than T: the equal-diagonal branch turns the off-diagonal entry 5 into
1 * pow(5, 0) = 1, so compute(T, 1) is not T. -/
theorem compute_identity_exponent_eval :
    compute (fun M => M) 0 !![(2:ℝ), 5; 0, 2] 1 0 = some !![2, 1; 0, 2] ∧
    (!![(2:ℝ), 5; 0, 2]) 0 1 = 5 ∧ (1:ℝ) ≠ 5 := by
  have hm : compute2x2R !![(2:ℝ), 5; 0, 2] 1 (0 : Matrix (Fin 2) (Fin 2) ℝ) =
      !![2, 1; 0, 2] := by
    ext i j
    fin_cases i <;> fin_cases j
    · rw [compute2x2R_diag _ _ _ _ _ rfl]
      norm_num [Real.rpow_one]
    · rw [compute2x2R_super_equal _ _ _ _ _ rfl (by norm_num)]
      rw [show ((1:ℝ) - 1) = 0 by norm_num, Real.rpow_zero]
      norm_num
    · rw [compute2x2R_untouched _ _ _ _ _ (by norm_num) (by norm_num)]
      norm_num
    · rw [compute2x2R_diag _ _ _ _ _ rfl]
      norm_num [Real.rpow_one]
  refine ⟨?_, by norm_num, by norm_num⟩
  rw [show compute (fun M => M) 0 !![(2:ℝ), 5; 0, 2] 1 0 =
      some (compute2x2R !![(2:ℝ), 5; 0, 2] 1 0) from rfl, hm]

/-- C6: whenever one diagonal entry is at least twice the other in
absolute value, compute2x2 fills the super-diagonal entry with the
divided difference T(j,k) * (output(k,k) - output(j,j)) /
(T(k,k) - T(j,j)); in particular on T = [[4,1],[0,9]] with p = 1/2 the
computed matrix is [[2,1/5],[0,3]]. -/
theorem compute2x2_divided_difference_branch :
    (∀ (n : ℕ) (A : Matrix (Fin n) (Fin n) ℝ) (p : ℝ)
        (res : Matrix (Fin n) (Fin n) ℝ) (j k : Fin n),
      (j : ℕ) + 1 = (k : ℕ) →
      (2 * |A j j| < |A k k| ∨ 2 * |A k k| < |A j j|) →
      compute2x2R A p res j k =
        A j k * (compute2x2R A p res k k - compute2x2R A p res j j) /
          (A k k - A j j)) ∧
    compute2x2R !![(4:ℝ), 1; 0, 9] (1/2) 0 = !![2, 1/5; 0, 3] := by
  constructor
  · intro n A p res j k h1 h2
    rw [compute2x2R_super_sep A p res j k h1 h2, compute2x2R_diag A p res k k rfl,
      compute2x2R_diag A p res j j rfl]
  · have h4 : (4:ℝ) ^ ((1:ℝ)/2) = 2 := by
      rw [show (4:ℝ) = (2:ℝ) ^ (2:ℕ) by norm_num, ← Real.rpow_natCast 2 2,
        ← Real.rpow_mul (by norm_num : (0:ℝ) ≤ 2)]
      norm_num
    have h9 : (9:ℝ) ^ ((1:ℝ)/2) = 3 := by
      rw [show (9:ℝ) = (3:ℝ) ^ (2:ℕ) by norm_num, ← Real.rpow_natCast 3 2,
        ← Real.rpow_mul (by norm_num : (0:ℝ) ≤ 3)]
      norm_num
    ext i j
    fin_cases i <;> fin_cases j
    · rw [compute2x2R_diag _ _ _ _ _ rfl]
      norm_num [h4]
    · rw [compute2x2R_super_sep _ _ _ _ _ rfl (by norm_num)]
      norm_num [h4, h9]
    · rw [compute2x2R_untouched _ _ _ _ _ (by norm_num) (by norm_num)]
      norm_num
    · rw [compute2x2R_diag _ _ _ _ _ rfl]
      norm_num [h9]

/-- Witness for C6: the divided-difference clause applied to the
concrete input T = [[4,1],[0,9]], p = 1/2, whose diagonal pair is
well-separated since 2*|4| < |9|. -/
theorem compute2x2_divided_difference_branch_inst :
    ((0 : Fin 2) : ℕ) + 1 = ((1 : Fin 2) : ℕ) ∧
    (2 * |(!![(4:ℝ), 1; 0, 9]) 0 0| < |(!![(4:ℝ), 1; 0, 9]) 1 1| ∨
      2 * |(!![(4:ℝ), 1; 0, 9]) 1 1| < |(!![(4:ℝ), 1; 0, 9]) 0 0|) ∧
    compute2x2R !![(4:ℝ), 1; 0, 9] (1/2) 0 0 1 =
      (!![(4:ℝ), 1; 0, 9]) 0 1 *
        (compute2x2R !![(4:ℝ), 1; 0, 9] (1/2) 0 1 1 -
          compute2x2R !![(4:ℝ), 1; 0, 9] (1/2) 0 0 0) /
        ((!![(4:ℝ), 1; 0, 9]) 1 1 - (!![(4:ℝ), 1; 0, 9]) 0 0) := by
  have h2 : 2 * |(!![(4:ℝ), 1; 0, 9]) 0 0| < |(!![(4:ℝ), 1; 0, 9]) 1 1| ∨
      2 * |(!![(4:ℝ), 1; 0, 9]) 1 1| < |(!![(4:ℝ), 1; 0, 9]) 0 0| := by norm_num
  exact ⟨rfl, h2,
    compute2x2_divided_difference_branch.1 2 !![(4:ℝ), 1; 0, 9] (1/2) 0 0 1 rfl h2⟩

/-- C5: in the close-but-unequal branch of compute2x2, the
super-diagonal entry equals T(j,k) * 2 * exp(0.5*p*(log T(k,k) +
log T(j,j))) * sinh(p*w) / (T(k,k) - T(j,j)) with
w = atanh2(T(k,k)-T(j,j), T(k,k)+T(j,j)) + i*pi*u and unwinding number
u = ceil((Im log T(k,k) - Im log T(j,j) - pi) / (2*pi)); for real
scalars the computed unwinding number is always 0 and the unwinder
omits the imaginary term. -/
theorem compute2x2_sinh_branch_formula :
    (∀ (n : ℕ) (A : Matrix (Fin n) (Fin n) ℂ) (p : ℝ)
        (res : Matrix (Fin n) (Fin n) ℂ) (j k : Fin n),
      (j : ℕ) + 1 = (k : ℕ) → A j j ≠ A k k →
      ¬ (2 * Complex.abs (A j j) < Complex.abs (A k k) ∨
          2 * Complex.abs (A k k) < Complex.abs (A j j)) →
      compute2x2C A p res j k =
        A j k * (2 : ℂ) *
          Complex.exp (((0.5 * p : ℝ) : ℂ) *
            (Complex.log (A k k) + Complex.log (A j j))) *
          Complex.sinh ((p : ℂ) *
            (atanh2C (A k k - A j j) (A k k + A j j) +
              ⟨0, Real.pi *
                ((⌈((Complex.log (A k k)).im - (Complex.log (A j j)).im - Real.pi) /
                    (2 * Real.pi)⌉ : ℤ) : ℝ)⟩)) /
          (A k k - A j j)) ∧
    (∀ x : ℝ, unwindingNumberR x = 0) ∧
    (∀ (a b : ℝ) (u : ℤ), unwinderR a b u = atanh2R (a - b) (a + b)) := by
  refine ⟨?_, ?_, fun a b u => rfl⟩
  · intro n A p res j k h1 h2 h3
    rw [compute2x2C_super_sinh A p res j k h1 h2 h3]
    simp only [unwinderC, unwindingNumberC, Complex.sub_im]
  · intro x
    simp only [unwindingNumberR, imagR]
    rw [show ((0:ℝ) - Real.pi) / (2 * Real.pi) = -(1/2) by
      rw [zero_sub, neg_div]
      congr 1
      rw [div_eq_iff (by positivity : (2:ℝ) * Real.pi ≠ 0)]
      ring]
    norm_num

/-- Witness for C5: the hyperbolic-sine clause applied to the concrete
complex input T = [[2,1],[0,3]] (diagonal entries unequal and not
well-separated, since 2*2 is not below 3 and 2*3 is not below 2) with
exponent p = 1. -/
theorem compute2x2_sinh_branch_formula_inst :
    ((0 : Fin 2) : ℕ) + 1 = ((1 : Fin 2) : ℕ) ∧
    (!![(2:ℂ), 1; 0, 3]) 0 0 ≠ (!![(2:ℂ), 1; 0, 3]) 1 1 ∧
    ¬ (2 * Complex.abs ((!![(2:ℂ), 1; 0, 3]) 0 0) <
        Complex.abs ((!![(2:ℂ), 1; 0, 3]) 1 1) ∨
      2 * Complex.abs ((!![(2:ℂ), 1; 0, 3]) 1 1) <
        Complex.abs ((!![(2:ℂ), 1; 0, 3]) 0 0)) ∧
    compute2x2C !![(2:ℂ), 1; 0, 3] 1 0 0 1 =
      (!![(2:ℂ), 1; 0, 3]) 0 1 * (2 : ℂ) *
        Complex.exp (((0.5 * 1 : ℝ) : ℂ) *
          (Complex.log ((!![(2:ℂ), 1; 0, 3]) 1 1) +
            Complex.log ((!![(2:ℂ), 1; 0, 3]) 0 0))) *
        Complex.sinh (((1:ℝ) : ℂ) *
          (atanh2C ((!![(2:ℂ), 1; 0, 3]) 1 1 - (!![(2:ℂ), 1; 0, 3]) 0 0)
              ((!![(2:ℂ), 1; 0, 3]) 1 1 + (!![(2:ℂ), 1; 0, 3]) 0 0) +
            ⟨0, Real.pi *
              ((⌈((Complex.log ((!![(2:ℂ), 1; 0, 3]) 1 1)).im -
                    (Complex.log ((!![(2:ℂ), 1; 0, 3]) 0 0)).im - Real.pi) /
                  (2 * Real.pi)⌉ : ℤ) : ℝ)⟩)) /
        ((!![(2:ℂ), 1; 0, 3]) 1 1 - (!![(2:ℂ), 1; 0, 3]) 0 0) := by
  have h2 : (!![(2:ℂ), 1; 0, 3]) 0 0 ≠ (!![(2:ℂ), 1; 0, 3]) 1 1 := by norm_num
  have h3 : ¬ (2 * Complex.abs ((!![(2:ℂ), 1; 0, 3]) 0 0) <
      Complex.abs ((!![(2:ℂ), 1; 0, 3]) 1 1) ∨
      2 * Complex.abs ((!![(2:ℂ), 1; 0, 3]) 1 1) <
      Complex.abs ((!![(2:ℂ), 1; 0, 3]) 0 0)) := by
    norm_num [Complex.abs_ofNat]
  exact ⟨rfl, h2, h3,
    compute2x2_sinh_branch_formula.1 2 !![(2:ℂ), 1; 0, 3] 1 0 0 1 rfl h2 h3⟩

/-- C7: compute dispatches on the matrix dimension: a 0x0 input returns
res unchanged, a 1x1 input writes pow(A(0,0), p) into entry (0,0) and
nothing else, a 2x2 input is delegated to compute2x2, and every larger
dimension is delegated to computeBig, with no other effect. -/
theorem compute_dimension_dispatch :
    (∀ (sqrtF : Matrix (Fin 0) (Fin 0) ℝ → Matrix (Fin 0) (Fin 0) ℝ) (fuel : ℕ)
        (A res : Matrix (Fin 0) (Fin 0) ℝ) (p : ℝ),
      compute sqrtF fuel A p res = some res) ∧
    (∀ (sqrtF : Matrix (Fin 1) (Fin 1) ℝ → Matrix (Fin 1) (Fin 1) ℝ) (fuel : ℕ)
        (A res : Matrix (Fin 1) (Fin 1) ℝ) (p : ℝ),
      compute sqrtF fuel A p res =
        some (fun (j k : Fin 1) =>
          if (j : ℕ) = 0 ∧ (k : ℕ) = 0 then A j k ^ p else res j k)) ∧
    (∀ (sqrtF : Matrix (Fin 2) (Fin 2) ℝ → Matrix (Fin 2) (Fin 2) ℝ) (fuel : ℕ)
        (A res : Matrix (Fin 2) (Fin 2) ℝ) (p : ℝ),
      compute sqrtF fuel A p res = some (compute2x2R A p res)) ∧
    (∀ (m : ℕ) (sqrtF : Matrix (Fin (m + 3)) (Fin (m + 3)) ℝ →
        Matrix (Fin (m + 3)) (Fin (m + 3)) ℝ) (fuel : ℕ)
        (A res : Matrix (Fin (m + 3)) (Fin (m + 3)) ℝ) (p : ℝ),
      compute sqrtF fuel A p res = computeBig sqrtF fuel A p) :=
  ⟨fun _ _ _ _ _ => rfl, fun _ _ _ _ _ => rfl, fun _ _ _ _ _ => rfl,
    fun _ _ _ _ _ _ => rfl⟩

/-- C10: for every adjacent diagonal pair, either the exact-equality
branch of compute2x2 is taken (whose formula involves no division by
the eigenvalue gap), or the two diagonal entries differ and the common
denominator T(k,k) - T(j,j) of the divided-difference and
hyperbolic-sine branches is nonzero; this holds for real and complex
scalars. -/
theorem compute2x2_denominator_nonzero :
    (∀ (n : ℕ) (A : Matrix (Fin n) (Fin n) ℝ) (p : ℝ)
        (res : Matrix (Fin n) (Fin n) ℝ) (j k : Fin n),
      (j : ℕ) + 1 = (k : ℕ) →
      (A j j = A k k ∧ compute2x2R A p res j k = p * A j k ^ (p - 1)) ∨
        A k k - A j j ≠ 0) ∧
    (∀ (n : ℕ) (A : Matrix (Fin n) (Fin n) ℂ) (p : ℝ)
        (res : Matrix (Fin n) (Fin n) ℂ) (j k : Fin n),
      (j : ℕ) + 1 = (k : ℕ) →
      (A j j = A k k ∧ compute2x2C A p res j k = (p : ℂ) * A j k ^ (((p - 1 : ℝ)) : ℂ)) ∨
        A k k - A j j ≠ 0) := by
  constructor
  · intro n A p res j k h1
    by_cases h : A j j = A k k
    · exact Or.inl ⟨h, compute2x2R_super_equal A p res j k h1 h⟩
    · exact Or.inr (sub_ne_zero.mpr (Ne.symm h))
  · intro n A p res j k h1
    by_cases h : A j j = A k k
    · exact Or.inl ⟨h, compute2x2C_super_equal A p res j k h1 h⟩
    · exact Or.inr (sub_ne_zero.mpr (Ne.symm h))

/-- Witness for C10: the real clause applied to the concrete pair of the
matrix [[4,1],[0,9]], whose diagonal entries 4 and 9 differ. -/
theorem compute2x2_denominator_nonzero_inst :
    ((0 : Fin 2) : ℕ) + 1 = ((1 : Fin 2) : ℕ) ∧
    (((!![(4:ℝ), 1; 0, 9]) 0 0 = (!![(4:ℝ), 1; 0, 9]) 1 1 ∧
        compute2x2R !![(4:ℝ), 1; 0, 9] 3 0 0 1 =
          3 * (!![(4:ℝ), 1; 0, 9]) 0 1 ^ ((3:ℝ) - 1)) ∨
      (!![(4:ℝ), 1; 0, 9]) 1 1 - (!![(4:ℝ), 1; 0, 9]) 0 0 ≠ 0) :=
  ⟨rfl, compute2x2_denominator_nonzero.1 2 !![(4:ℝ), 1; 0, 9] 3 0 0 1 rfl⟩

/-- The upper-triangular view of an upper-triangular matrix is the
matrix itself. -/
theorem upperTri_eq_self {α : Type} [Zero α] {n : ℕ} (M : Matrix (Fin n) (Fin n) α)
    (h : IsUpperTri M) : upperTri M = M := by
  ext i j
  by_cases hij : (i : ℕ) ≤ (j : ℕ)
  · simp [upperTri, hij]
  · simp only [upperTri, if_neg hij]
    exact (h i j (by omega)).symm

/-- The upper-triangular view is upper triangular. -/
theorem isUpperTri_upperTri {α : Type} [Zero α] {n : ℕ}
    (M : Matrix (Fin n) (Fin n) α) : IsUpperTri (upperTri M) := by
  intro i j hji
  simp only [upperTri]
  rw [if_neg (by omega)]

/-- The upper-triangular view keeps every diagonal entry. -/
theorem upperTri_diag {α : Type} [Zero α] {n : ℕ} (M : Matrix (Fin n) (Fin n) α)
    (i : Fin n) : upperTri M i i = M i i := by
  simp [upperTri]

/-- Unfolding: the zeroth square-root iterate. -/
theorem sqrtIter_zero {n : ℕ} (sqrtF : Matrix (Fin n) (Fin n) ℝ → Matrix (Fin n) (Fin n) ℝ)
    (T : Matrix (Fin n) (Fin n) ℝ) : sqrtIter sqrtF T 0 = T := rfl

/-- Unfolding: one square-root iteration. -/
theorem sqrtIter_succ {n : ℕ} (sqrtF : Matrix (Fin n) (Fin n) ℝ → Matrix (Fin n) (Fin n) ℝ)
    (T : Matrix (Fin n) (Fin n) ℝ) (k : ℕ) :
    sqrtIter sqrtF T (k + 1) = upperTri (sqrtF (sqrtIter sqrtF T k)) := rfl

/-- The square-root iterates of the once-rooted matrix are the shifted
iterates of the original. -/
theorem sqrtIter_shift {n : ℕ} (sqrtF : Matrix (Fin n) (Fin n) ℝ → Matrix (Fin n) (Fin n) ℝ)
    (T : Matrix (Fin n) (Fin n) ℝ) :
    ∀ k, sqrtIter sqrtF T (k + 1) = sqrtIter sqrtF (upperTri (sqrtF T)) k := by
  intro k
  induction k with
  | zero => rfl
  | succ k ih => rw [sqrtIter_succ, ih, ← sqrtIter_succ]

/-- Under the collaborator contract, every square-root iterate of an
upper-triangular positive-diagonal matrix is upper triangular with
positive diagonal. -/
theorem sqrtIter_invariant {n : ℕ}
    (sqrtF : Matrix (Fin n) (Fin n) ℝ → Matrix (Fin n) (Fin n) ℝ)
    (hc : SqrtContract sqrtF) (T : Matrix (Fin n) (Fin n) ℝ)
    (hT : IsUpperTri T) (hd : ∀ i, 0 < T i i) :
    ∀ k, IsUpperTri (sqrtIter sqrtF T k) ∧ ∀ i, 0 < sqrtIter sqrtF T k i i := by
  intro k
  induction k with
  | zero => exact ⟨hT, hd⟩
  | succ k ih =>
    obtain ⟨h1, h2, _⟩ := hc _ ih.1 ih.2
    refine ⟨by rw [sqrtIter_succ]; exact isUpperTri_upperTri _, ?_⟩
    intro i
    rw [sqrtIter_succ, upperTri_diag]
    exact h2 i

/-- Under the collaborator contract, each square-root iterate squares
back to its predecessor. -/
theorem sqrtIter_sq {n : ℕ}
    (sqrtF : Matrix (Fin n) (Fin n) ℝ → Matrix (Fin n) (Fin n) ℝ)
    (hc : SqrtContract sqrtF) (T : Matrix (Fin n) (Fin n) ℝ)
    (hT : IsUpperTri T) (hd : ∀ i, 0 < T i i) (k : ℕ) :
    sqrtIter sqrtF T (k + 1) * sqrtIter sqrtF T (k + 1) = sqrtIter sqrtF T k := by
  obtain ⟨h1, _, h3⟩ := hc _ (sqrtIter_invariant sqrtF hc T hT hd k).1
    (sqrtIter_invariant sqrtF hc T hT hd k).2
  rw [sqrtIter_succ, upperTri_eq_self _ h1, h3]

/-- The diagonal of the square of an upper-triangular matrix is the
square of its diagonal. -/
theorem mul_diag_of_upperTri {n : ℕ} (S : Matrix (Fin n) (Fin n) ℝ)
    (hS : IsUpperTri S) (i : Fin n) : (S * S) i i = S i i * S i i := by
  rw [Matrix.mul_apply]
  rw [Finset.sum_eq_single i]
  · intro l _ hli
    rcases Nat.lt_or_ge (l : ℕ) (i : ℕ) with h | h
    · rw [hS i l h, zero_mul]
    · have h2 : (i : ℕ) < (l : ℕ) := by
        rcases Nat.eq_or_lt_of_le h with h | h
        · exact absurd (Fin.ext h.symm) hli
        · exact h
      rw [hS l i h2, mul_zero]
  · intro h
    exact absurd (Finset.mem_univ i) h

/-- Entry (i,j), i < j, of the square of an upper-triangular matrix:
only the indices between i and j contribute, and the two boundary terms
are the diagonal entries times the (i,j) entry. -/
theorem mul_entry_split {n : ℕ} (S : Matrix (Fin n) (Fin n) ℝ)
    (hS : IsUpperTri S) (i j : Fin n) (hij : i < j) :
    (S * S) i j =
      S i i * S i j + (∑ l ∈ Finset.Ioo i j, S i l * S l j) + S i j * S j j := by
  rw [Matrix.mul_apply]
  rw [← Finset.sum_subset (Finset.subset_univ (Finset.Icc i j)) ?_]
  · rw [Finset.Icc_eq_cons_Ioc (le_of_lt hij), Finset.sum_cons,
      Finset.Ioc_eq_cons_Ioo hij, Finset.sum_cons]
    ring
  · intro l _ hl
    rw [Finset.mem_Icc] at hl
    rcases not_and_or.mp hl with h | h
    · rw [hS i l (by rw [Fin.le_def] at h; omega), zero_mul]
    · rw [hS l j (by rw [Fin.le_def] at h; omega), mul_zero]

/-- The diagonal of the k-th square-root iterate is the 2^(-k)-th power
of the original diagonal. -/
theorem sqrtIter_diag {n : ℕ}
    (sqrtF : Matrix (Fin n) (Fin n) ℝ → Matrix (Fin n) (Fin n) ℝ)
    (hc : SqrtContract sqrtF) (T : Matrix (Fin n) (Fin n) ℝ)
    (hT : IsUpperTri T) (hd : ∀ i, 0 < T i i) :
    ∀ (k : ℕ) (i : Fin n), sqrtIter sqrtF T k i i = T i i ^ (((1:ℝ)/2) ^ k) := by
  intro k
  induction k with
  | zero =>
    intro i
    rw [sqrtIter_zero, pow_zero, Real.rpow_one]
  | succ k ih =>
    intro i
    have hsq := sqrtIter_sq sqrtF hc T hT hd k
    have hpos := (sqrtIter_invariant sqrtF hc T hT hd (k + 1)).2 i
    have h1 : sqrtIter sqrtF T (k + 1) i i * sqrtIter sqrtF T (k + 1) i i =
        sqrtIter sqrtF T k i i := by
      rw [← mul_diag_of_upperTri _ (sqrtIter_invariant sqrtF hc T hT hd (k + 1)).1 i, hsq]
    have h2 : sqrtIter sqrtF T (k + 1) i i = Real.sqrt (sqrtIter sqrtF T k i i) := by
      rw [← h1, Real.sqrt_mul_self hpos.le]
    rw [h2, ih i, Real.sqrt_eq_rpow, ← Real.rpow_mul (hd i).le, ← pow_succ]

/-- The diagonal entries of the square-root iterates converge to 1. -/
theorem sqrtIter_diag_tendsto {n : ℕ}
    (sqrtF : Matrix (Fin n) (Fin n) ℝ → Matrix (Fin n) (Fin n) ℝ)
    (hc : SqrtContract sqrtF) (T : Matrix (Fin n) (Fin n) ℝ)
    (hT : IsUpperTri T) (hd : ∀ i, 0 < T i i) (i : Fin n) :
    Filter.Tendsto (fun k => sqrtIter sqrtF T k i i) Filter.atTop (nhds 1) := by
  have h2 : Filter.Tendsto (fun k : ℕ => Real.log (T i i) * ((1:ℝ)/2) ^ k)
      Filter.atTop (nhds 0) := by
    have h0 := tendsto_pow_atTop_nhds_zero_of_lt_one
      (by norm_num : (0:ℝ) ≤ 1/2) (by norm_num : (1:ℝ)/2 < 1)
    simpa using h0.const_mul (Real.log (T i i))
  have h3 : Filter.Tendsto (fun k : ℕ => Real.exp (Real.log (T i i) * ((1:ℝ)/2) ^ k))
      Filter.atTop (nhds (Real.exp 0)) := (Real.continuous_exp.tendsto 0).comp h2
  rw [Real.exp_zero] at h3
  refine h3.congr fun k => ?_
  rw [sqrtIter_diag sqrtF hc T hT hd k i, Real.rpow_def_of_pos (hd i)]

/-- Decay of a nonnegative sequence satisfying the Parlett-style
recurrence bound y(k+1) * gamma(k) <= y(k) + c(k): when the
perturbations c vanish and the divisors gamma stay eventually above
3/2, the sequence tends to zero. -/
theorem seq_decay (y c γ : ℕ → ℝ) (hy : ∀ k, 0 ≤ y k)
    (hrec : ∀ k, y (k + 1) * γ k ≤ y k + c k)
    (hγ : ∀ᶠ k in Filter.atTop, (3:ℝ)/2 ≤ γ k)
    (hctend : Filter.Tendsto c Filter.atTop (nhds 0)) :
    Filter.Tendsto y Filter.atTop (nhds 0) := by
  rw [Metric.tendsto_atTop]
  intro ε hε
  have hc9 : ∀ᶠ k in Filter.atTop, c k ≤ ε/9 :=
    hctend.eventually_le_const (by positivity)
  obtain ⟨K0, hK0⟩ := Filter.eventually_atTop.mp (hγ.and hc9)
  have hstep : ∀ k, K0 ≤ k → y (k + 1) ≤ (2:ℝ)/3 * (y k + ε/9) := by
    intro k hk
    obtain ⟨hγk, hck⟩ := hK0 k hk
    have h1 := hrec k
    have h2 := hy (k + 1)
    nlinarith
  have hmain : ∀ t : ℕ, y (K0 + t) ≤ ε/2 ∨ y (K0 + t) ≤ y K0 - t * (5*ε/54) := by
    intro t
    induction t with
    | zero => right; simp
    | succ t ih =>
      have hs := hstep (K0 + t) (by omega)
      have hnext : y (K0 + (t + 1)) = y ((K0 + t) + 1) := by ring_nf
      by_cases hyt : y (K0 + t) ≤ ε/2
      · left
        rw [hnext]
        linarith
      · rcases ih with ih | ih
        · exact absurd ih hyt
        · right
          rw [hnext]
          push_neg at hyt
          push_cast
          nlinarith
  obtain ⟨t0, ht0⟩ := exists_nat_ge ((y K0) * 54 / (5 * ε))
  refine ⟨K0 + t0, fun m hm => ?_⟩
  have hy2 : y m ≤ ε/2 := by
    obtain ⟨t, rfl⟩ : ∃ t, m = K0 + t := ⟨m - K0, by omega⟩
    rcases hmain t with h | h
    · exact h
    · have htt0 : (t0 : ℝ) ≤ (t : ℝ) := by
        have : t0 ≤ t := by omega
        exact_mod_cast this
      have h5 : y K0 * 54 / (5 * ε) * (5*ε/54) = y K0 := by
        field_simp
      nlinarith
  rw [Real.dist_eq, sub_zero, abs_of_nonneg (hy m)]
  linarith

/-- The strictly-above-diagonal entries of the square-root iterates
converge to 0: each entry obeys the Parlett-style recurrence obtained
from squaring the next iterate, whose divisor is a sum of two diagonal
entries tending to 2 and whose perturbation is a band of products of
entries with strictly smaller gap. -/
theorem sqrtIter_offdiag_tendsto {n : ℕ}
    (sqrtF : Matrix (Fin n) (Fin n) ℝ → Matrix (Fin n) (Fin n) ℝ)
    (hc : SqrtContract sqrtF) (T : Matrix (Fin n) (Fin n) ℝ)
    (hT : IsUpperTri T) (hd : ∀ i, 0 < T i i) (i j : Fin n) (hij : i < j) :
    Filter.Tendsto (fun k => sqrtIter sqrtF T k i j) Filter.atTop (nhds 0) := by
  have main : ∀ g : ℕ, ∀ i j : Fin n, i < j → (j : ℕ) - (i : ℕ) = g →
      Filter.Tendsto (fun k => sqrtIter sqrtF T k i j) Filter.atTop (nhds 0) := by
    intro g
    induction g using Nat.strong_induction_on with
    | _ g ih =>
      intro i j hij hg
      have hij' : (i : ℕ) < (j : ℕ) := hij
      rw [tendsto_zero_iff_abs_tendsto_zero]
      have hident : ∀ k : ℕ,
          sqrtIter sqrtF T (k + 1) i j *
              (sqrtIter sqrtF T (k + 1) i i + sqrtIter sqrtF T (k + 1) j j) =
            sqrtIter sqrtF T k i j -
              ∑ l ∈ Finset.Ioo i j,
                sqrtIter sqrtF T (k + 1) i l * sqrtIter sqrtF T (k + 1) l j := by
        intro k
        have hsplit := mul_entry_split (sqrtIter sqrtF T (k + 1))
          (sqrtIter_invariant sqrtF hc T hT hd (k + 1)).1 i j hij
        rw [sqrtIter_sq sqrtF hc T hT hd k] at hsplit
        rw [hsplit]
        ring
      have hγ2 : Filter.Tendsto
          (fun k => sqrtIter sqrtF T (k + 1) i i + sqrtIter sqrtF T (k + 1) j j)
          Filter.atTop (nhds 2) := by
        have h1 := (sqrtIter_diag_tendsto sqrtF hc T hT hd i).comp
          (Filter.tendsto_add_atTop_nat 1)
        have h2 := (sqrtIter_diag_tendsto sqrtF hc T hT hd j).comp
          (Filter.tendsto_add_atTop_nat 1)
        have := h1.add h2
        norm_num at this
        exact this
      refine seq_decay (fun k => |sqrtIter sqrtF T k i j|)
        (fun k => ∑ l ∈ Finset.Ioo i j,
          |sqrtIter sqrtF T (k + 1) i l * sqrtIter sqrtF T (k + 1) l j|)
        (fun k => sqrtIter sqrtF T (k + 1) i i + sqrtIter sqrtF T (k + 1) j j)
        (fun k => abs_nonneg _) (fun k => ?_)
        ((hγ2.eventually_const_lt (by norm_num : (3:ℝ)/2 < 2)).mono
          fun k hk => le_of_lt hk) ?_
      · have hγpos : 0 < sqrtIter sqrtF T (k + 1) i i + sqrtIter sqrtF T (k + 1) j j :=
          add_pos ((sqrtIter_invariant sqrtF hc T hT hd (k + 1)).2 i)
            ((sqrtIter_invariant sqrtF hc T hT hd (k + 1)).2 j)
        calc |sqrtIter sqrtF T (k + 1) i j| *
            (sqrtIter sqrtF T (k + 1) i i + sqrtIter sqrtF T (k + 1) j j)
            = |sqrtIter sqrtF T (k + 1) i j *
              (sqrtIter sqrtF T (k + 1) i i + sqrtIter sqrtF T (k + 1) j j)| := by
              rw [abs_mul, abs_of_pos hγpos]
          _ = |sqrtIter sqrtF T k i j -
              ∑ l ∈ Finset.Ioo i j,
                sqrtIter sqrtF T (k + 1) i l * sqrtIter sqrtF T (k + 1) l j| := by
              rw [hident k]
          _ ≤ |sqrtIter sqrtF T k i j| +
              |∑ l ∈ Finset.Ioo i j,
                sqrtIter sqrtF T (k + 1) i l * sqrtIter sqrtF T (k + 1) l j| :=
              abs_sub _ _
          _ ≤ |sqrtIter sqrtF T k i j| +
              ∑ l ∈ Finset.Ioo i j,
                |sqrtIter sqrtF T (k + 1) i l * sqrtIter sqrtF T (k + 1) l j| := by
              have := Finset.abs_sum_le_sum_abs
                (fun l => sqrtIter sqrtF T (k + 1) i l * sqrtIter sqrtF T (k + 1) l j)
                (Finset.Ioo i j)
              linarith
      · have hzero : (0:ℝ) = ∑ l ∈ Finset.Ioo i j, (0:ℝ) := by simp
        rw [hzero]
        refine tendsto_finset_sum _ fun l hl => ?_
        rw [Finset.mem_Ioo] at hl
        have hil : i < l := hl.1
        have hlj : l < j := hl.2
        have t1 : Filter.Tendsto (fun k => sqrtIter sqrtF T (k + 1) i l)
            Filter.atTop (nhds 0) :=
          (ih ((l : ℕ) - (i : ℕ)) (by rw [Fin.lt_def] at hil hlj; omega) i l hil rfl).comp
            (Filter.tendsto_add_atTop_nat 1)
        have t2 : Filter.Tendsto (fun k => sqrtIter sqrtF T (k + 1) l j)
            Filter.atTop (nhds 0) :=
          (ih ((j : ℕ) - (l : ℕ)) (by rw [Fin.lt_def] at hil hlj; omega) l j hlj rfl).comp
            (Filter.tendsto_add_atTop_nat 1)
        have := (t1.mul t2).abs
        norm_num at this
        exact this
  exact main ((j : ℕ) - (i : ℕ)) i j hij rfl

/-- A fold of max seeded with 0 is nonnegative. -/
theorem foldr_max_nonneg (l : List ℝ) : 0 ≤ l.foldr max 0 := by
  induction l with
  | nil => simp
  | cons a l ih =>
    simp only [List.foldr_cons]
    exact le_max_of_le_right ih

/-- A fold of max seeded with 0 over a nonnegative list is at most the
sum of the list. -/
theorem foldr_max_le_sum (l : List ℝ) (h : ∀ x ∈ l, 0 ≤ x) : l.foldr max 0 ≤ l.sum := by
  induction l with
  | nil => simp
  | cons a l ih =>
    simp only [List.foldr_cons, List.sum_cons]
    have ha := h a (List.mem_cons_self a l)
    have hl := ih fun x hx => h x (List.mem_cons_of_mem a hx)
    have hs : (0:ℝ) ≤ l.sum := List.sum_nonneg fun x hx => h x (List.mem_cons_of_mem a hx)
    exact max_le (by linarith) (by linarith)

/-- The column-sum norm is nonnegative. -/
theorem colSumNorm_nonneg {n : ℕ} (M : Matrix (Fin n) (Fin n) ℝ) : 0 ≤ colSumNorm M :=
  foldr_max_nonneg _

/-- The column-sum norm is at most the sum of absolute values of all
entries. -/
theorem colSumNorm_le_total {n : ℕ} (M : Matrix (Fin n) (Fin n) ℝ) :
    colSumNorm M ≤ ∑ j : Fin n, ∑ i : Fin n, |M i j| := by
  have h := foldr_max_le_sum
    (List.ofFn fun j : Fin n => (List.ofFn fun i : Fin n => |M i j|).sum) ?_
  · refine le_trans h (le_of_eq ?_)
    rw [List.sum_ofFn]
    refine Finset.sum_congr rfl fun j _ => ?_
    rw [List.sum_ofFn]
  · intro x hx
    rw [List.mem_ofFn] at hx
    obtain ⟨j, rfl⟩ := hx
    exact List.sum_nonneg fun y hy => by
      rw [List.mem_ofFn] at hy
      obtain ⟨i, rfl⟩ := hy
      exact abs_nonneg _

/-- Every entry of I minus the square-root iterates tends to 0 in
absolute value. -/
theorem sqrtIter_entry_abs_tendsto {n : ℕ}
    (sqrtF : Matrix (Fin n) (Fin n) ℝ → Matrix (Fin n) (Fin n) ℝ)
    (hc : SqrtContract sqrtF) (T : Matrix (Fin n) (Fin n) ℝ)
    (hT : IsUpperTri T) (hd : ∀ i, 0 < T i i) (i j : Fin n) :
    Filter.Tendsto (fun k => |(1 - sqrtIter sqrtF T k) i j|) Filter.atTop (nhds 0) := by
  have hentry : ∀ k, (1 - sqrtIter sqrtF T k) i j =
      (if i = j then (1:ℝ) else 0) - sqrtIter sqrtF T k i j := by
    intro k
    rw [Matrix.sub_apply, Matrix.one_apply]
  rcases lt_trichotomy (i : ℕ) (j : ℕ) with h | h | h
  · have hne : ¬ i = j := fun he => by rw [he] at h; omega
    have t := sqrtIter_offdiag_tendsto sqrtF hc T hT hd i j (by rw [Fin.lt_def]; exact h)
    have t2 : Filter.Tendsto
        (fun k => (if i = j then (1:ℝ) else 0) - sqrtIter sqrtF T k i j)
        Filter.atTop (nhds 0) := by
      rw [if_neg hne]
      have h0 := tendsto_const_nhds (x := (0:ℝ)) (f := Filter.atTop (α := ℕ)) |>.sub t
      norm_num at h0
      exact h0.congr fun k => by ring
    have habs := t2.abs
    rw [abs_zero] at habs
    exact habs.congr fun k => by rw [← hentry k]
  · have heq : i = j := Fin.ext h
    subst heq
    have t := sqrtIter_diag_tendsto sqrtF hc T hT hd i
    have t2 : Filter.Tendsto
        (fun k => (if i = i then (1:ℝ) else 0) - sqrtIter sqrtF T k i i)
        Filter.atTop (nhds 0) := by
      rw [if_pos rfl]
      have := tendsto_const_nhds (x := (1:ℝ)) (f := Filter.atTop (α := ℕ)) |>.sub t
      norm_num at this
      exact this
    have habs := t2.abs
    rw [abs_zero] at habs
    exact habs.congr fun k => by rw [← hentry k]
  · have hne : ¬ i = j := fun he => by rw [he] at h; omega
    have hzero : ∀ k, (1 - sqrtIter sqrtF T k) i j = 0 := by
      intro k
      rw [hentry k, if_neg hne, (sqrtIter_invariant sqrtF hc T hT hd k).1 i j h]
      ring
    have : Filter.Tendsto (fun _ : ℕ => |(0:ℝ)|) Filter.atTop (nhds 0) := by
      simp only [abs_zero]
      exact tendsto_const_nhds
    exact this.congr fun k => by rw [hzero k]

/-- The column-sum norm of I minus the square-root iterates tends
to 0. -/
theorem sqrtIter_norm_tendsto {n : ℕ}
    (sqrtF : Matrix (Fin n) (Fin n) ℝ → Matrix (Fin n) (Fin n) ℝ)
    (hc : SqrtContract sqrtF) (T : Matrix (Fin n) (Fin n) ℝ)
    (hT : IsUpperTri T) (hd : ∀ i, 0 < T i i) :
    Filter.Tendsto (fun k => colSumNorm (1 - sqrtIter sqrtF T k))
      Filter.atTop (nhds 0) := by
  refine squeeze_zero (fun k => colSumNorm_nonneg _)
    (fun k => colSumNorm_le_total (1 - sqrtIter sqrtF T k)) ?_
  have hzero : (0:ℝ) = ∑ _j : Fin n, ∑ _i : Fin n, (0:ℝ) := by simp
  rw [hzero]
  refine tendsto_finset_sum _ fun j _ => ?_
  refine tendsto_finset_sum _ fun i _ => ?_
  exact sqrtIter_entry_abs_tendsto sqrtF hc T hT hd i j

/-- Once the norms of I minus the square-root iterates stay below the
threshold from some index on, the scaling loop halts with some fuel:
at the first small-norm iteration it either breaks, or takes its one
extra square root and then breaks at the next iteration. -/
theorem scalingLoop_term_of_small {n : ℕ}
    (sqrtF : Matrix (Fin n) (Fin n) ℝ → Matrix (Fin n) (Fin n) ℝ)
    (maxNorm : ℝ) (table : List ℝ) (maxDeg : ℕ) :
    ∀ (K : ℕ) (T₀ : Matrix (Fin n) (Fin n) ℝ) (count : ℕ) (b : Bool),
      (∀ k, K ≤ k → colSumNorm (1 - sqrtIter sqrtF T₀ k) < maxNorm) →
      ∃ fuel r, scalingLoop sqrtF maxNorm table maxDeg fuel (T₀, count, b) = some r := by
  intro K
  induction K with
  | zero =>
    intro T₀ count b hsm
    have h0 : colSumNorm (1 - T₀) < maxNorm := hsm 0 (Nat.le_refl 0)
    have h1 : colSumNorm (1 - upperTri (sqrtF T₀)) < maxNorm := hsm 1 (Nat.zero_le 1)
    by_cases hbreak : (padeDegreeSel table maxDeg (colSumNorm (1 - T₀)) : ℤ) -
        (padeDegreeSel table maxDeg (colSumNorm (1 - T₀) / 2) : ℤ) ≤ 1 ∨ b = true
    · exact ⟨1, (padeDegreeSel table maxDeg (colSumNorm (1 - T₀)), 1 - T₀, count),
        by rw [show (1:ℕ) = 0 + 1 from rfl, scalingLoop_succ, if_pos h0, if_pos hbreak]⟩
    · refine ⟨2, (padeDegreeSel table maxDeg (colSumNorm (1 - upperTri (sqrtF T₀))),
        1 - upperTri (sqrtF T₀), count + 1), ?_⟩
      rw [show (2:ℕ) = 1 + 1 from rfl, scalingLoop_succ, if_pos h0, if_neg hbreak,
        show (1:ℕ) = 0 + 1 from rfl, scalingLoop_succ, if_pos h1, if_pos (Or.inr rfl)]
  | succ K ih =>
    intro T₀ count b hsm
    have hsm' : ∀ k, K ≤ k →
        colSumNorm (1 - sqrtIter sqrtF (upperTri (sqrtF T₀)) k) < maxNorm := by
      intro k hk
      have h := hsm (k + 1) (by omega)
      rw [sqrtIter_shift] at h
      exact h
    by_cases hnorm : colSumNorm (1 - T₀) < maxNorm
    · by_cases hbreak : (padeDegreeSel table maxDeg (colSumNorm (1 - T₀)) : ℤ) -
          (padeDegreeSel table maxDeg (colSumNorm (1 - T₀) / 2) : ℤ) ≤ 1 ∨ b = true
      · exact ⟨1, (padeDegreeSel table maxDeg (colSumNorm (1 - T₀)), 1 - T₀, count),
          by rw [show (1:ℕ) = 0 + 1 from rfl, scalingLoop_succ, if_pos hnorm,
            if_pos hbreak]⟩
      · obtain ⟨fuel, r, hr⟩ := ih (upperTri (sqrtF T₀)) (count + 1) true hsm'
        exact ⟨fuel + 1, r, by rw [scalingLoop_succ, if_pos hnorm, if_neg hbreak]; exact hr⟩
    · obtain ⟨fuel, r, hr⟩ := ih (upperTri (sqrtF T₀)) (count + 1) b hsm'
      exact ⟨fuel + 1, r, by rw [scalingLoop_succ, if_neg hnorm]; exact hr⟩

/-- C9: for every upper-triangular input with positive diagonal (the
domain on which the real principal square-root collaborator exists, the
real-scalar reading of eigenvalue magnitudes bounded away from zero)
and every collaborator satisfying the square-root contract, the scaling
loop reaches its break for every positive threshold - the repeated
square-rooting drives the norm of I - W below the threshold after
finitely many iterations and the loop stops within two further
small-norm iterations; in particular computeBig, which has no
externally imposed iteration cap, needs only finitely much fuel. -/
theorem scaling_loop_termination :
    ∀ (n : ℕ) (sqrtF : Matrix (Fin n) (Fin n) ℝ → Matrix (Fin n) (Fin n) ℝ),
      SqrtContract sqrtF →
      ∀ A : Matrix (Fin n) (Fin n) ℝ, (∀ i, 0 < A i i) →
      (∀ maxNorm : ℝ, 0 < maxNorm → ∀ (table : List ℝ) (maxDeg count : ℕ) (b : Bool),
        ∃ fuel r,
          scalingLoop sqrtF maxNorm table maxDeg fuel (upperTri A, count, b) = some r) ∧
      (∀ p : ℝ, ∃ fuel res, computeBig sqrtF fuel A p = some res) := by
  intro n sqrtF hc A hd
  have hT : IsUpperTri (upperTri A) := isUpperTri_upperTri A
  have hd' : ∀ i, 0 < upperTri A i i := fun i => by rw [upperTri_diag]; exact hd i
  have hloop : ∀ maxNorm : ℝ, 0 < maxNorm → ∀ (table : List ℝ) (maxDeg count : ℕ)
      (b : Bool), ∃ fuel r,
      scalingLoop sqrtF maxNorm table maxDeg fuel (upperTri A, count, b) = some r := by
    intro maxNorm hpos table maxDeg count b
    have htend := sqrtIter_norm_tendsto sqrtF hc (upperTri A) hT hd'
    obtain ⟨K, hK⟩ := Filter.eventually_atTop.mp (htend.eventually_lt_const hpos)
    exact scalingLoop_term_of_small sqrtF maxNorm table maxDeg K (upperTri A) count b hK
  refine ⟨hloop, ?_⟩
  intro p
  obtain ⟨fuel, r, hr⟩ := hloop maxNormForPadeDouble
    (by norm_num [maxNormForPadeDouble]) (padeTableDouble ℝ) 7 0 false
  obtain ⟨d, IminusT, c⟩ := r
  refine ⟨fuel, unscale A p c (computePade d IminusT p), ?_⟩
  unfold computeBig
  rw [hr]

/-- Witness for C9: the scalar square root satisfies the collaborator
contract on 1x1 matrices, the concrete input [[4]] has positive
diagonal, and computeBig on it halts with some fuel. -/
theorem scaling_loop_termination_inst :
    SqrtContract sqrtFin1 ∧ (∀ i : Fin 1, 0 < (!![(4:ℝ)]) i i) ∧
    ∃ fuel res, computeBig sqrtFin1 fuel !![(4:ℝ)] 1 = some res := by
  have hcontract : SqrtContract sqrtFin1 := by
    intro M _ hd
    refine ⟨?_, ?_, ?_⟩
    · intro i j hji
      have h1 := i.isLt
      have h2 := j.isLt
      omega
    · intro i
      have hi : i = 0 := Subsingleton.elim i 0
      subst hi
      have : sqrtFin1 M 0 0 = Real.sqrt (M 0 0) := by norm_num [sqrtFin1]
      rw [this]
      exact Real.sqrt_pos.mpr (hd 0)
    · ext i j
      have hi : i = 0 := Subsingleton.elim i 0
      have hj : j = 0 := Subsingleton.elim j 0
      subst hi; subst hj
      rw [Matrix.mul_apply, Fin.sum_univ_one]
      have h : sqrtFin1 M 0 0 = Real.sqrt (M 0 0) := by norm_num [sqrtFin1]
      rw [h, Real.mul_self_sqrt (hd 0).le]
  have hd4 : ∀ i : Fin 1, 0 < (!![(4:ℝ)]) i i := by
    intro i
    fin_cases i
    norm_num
  exact ⟨hcontract, hd4,
    (scaling_loop_termination 1 sqrtFin1 hcontract !![(4:ℝ)] hd4).2 1⟩

end MatrixPowerAtomic
